import Mathlib

/-!
Shallow embedding of the container demonstrations in src/main.cpp
(whess/brian_data_structures) and proofs about them.

Conventions of the embedding:
* C++ `int` values stay small here (ages, exit codes), so they are
  modelled by `Int` with no wrap-around.
* `std::set` / `std::map` / `absl::btree_set` are modelled by lists kept
  in strictly increasing comparator order; insertion descends exactly as
  a search-tree insert does (smaller goes left, larger goes right, an
  equivalent key stops the insertion).
* `std::priority_queue<T>` with the default `std::less` comparator is a
  max-heap: `top` is the greatest element under the comparator, `pop`
  removes it.  The heap content is modelled by the list of pushed
  elements; `pqTop` picks a maximal element exactly as the heap exposes
  it.
* `std::unordered_set` is modelled by its list of distinct elements in
  insertion order; lookup is by equality, iteration order is treated as
  unspecified.
* Console output is modelled as a list of printed lines.
-/

/-- The `Person` record of main.cpp: a name and an integer age. -/
structure Person where
  name : String
  age : Int
deriving DecidableEq

/-- `Person::operator<` of main.cpp: compares only the `age` field. -/
def Person.lt (a b : Person) : Bool :=
  a.age < b.age

/-- `std::priority_queue::push`: the heap content gains the new element. -/
def pqPush (q : List Person) (p : Person) : List Person :=
  p :: q

/-- `std::priority_queue::top` with comparator `Person.lt` (default
`std::less`): returns a maximal element under the comparator, `none` on an
empty queue. -/
def pqTop : List Person → Option Person
  | [] => none
  | x :: xs => some (xs.foldl (fun m y => if Person.lt m y then y else m) x)

/-- `std::priority_queue::pop`: removes the element `top` exposes. -/
def pqPop (q : List Person) : List Person :=
  match pqTop q with
  | none => q
  | some t => q.erase t

/-- Repeated `top`-then-`pop` until the queue is empty, with fuel. -/
def pqDrainAux : Nat → List Person → List Person
  | 0, _ => []
  | Nat.succ n, q =>
    match pqTop q with
    | none => []
    | some t => t :: pqDrainAux n (pqPop q)

/-- The sequence of elements obtained by repeatedly taking `top` and then
popping, until the queue is empty. -/
def pqDrain (q : List Person) : List Person :=
  pqDrainAux q.length q

/-- The three records pushed in `Trees` (main.cpp lines 113-118). -/
def brian : Person := { name := "Brian", age := 39 }

def bill : Person := { name := "Bill", age := 37 }

def jen : Person := { name := "Jen", age := 38 }

/-- The queue `people` of `Trees` after the three pushes, in push order
Brian, Bill, Jen. -/
def people : List Person :=
  pqPush (pqPush (pqPush [] brian) bill) jen

/-- Claim C1: evaluation of the code at the claimed input.  The queue
`std::priority_queue<Person>` built in `Trees` uses the default
`std::less` comparator, hence is a max-heap: the first `top` is Brian
(age 39), not Bill (age 37), and draining the queue yields Brian, Jen,
Bill - the reverse of the order the claim (and the comment in the code)
expects. -/
theorem trees_priorityQueue_drain_max_first :
    pqTop people = some brian ∧
    pqDrain people = [brian, jen, bill] ∧
    pqTop people ≠ some bill := by
  refine ⟨by decide, by decide, by decide⟩

/-- Lexicographic comparison of character sequences: the comparison
`std::string::operator<` performs.  A proper nonempty extension is
greater; otherwise the first differing character decides. -/
def charListLt : List Char → List Char → Bool
  | _, [] => false
  | [], _ :: _ => true
  | c :: cs, d :: ds =>
    if c < d then true
    else if d < c then false
    else charListLt cs ds

/-- `std::string::operator<`: lexicographic comparison of the characters. -/
def strLt (a b : String) : Bool :=
  charListLt a.data b.data

theorem charListLt_irrefl (l : List Char) : charListLt l l = false := by
  induction l with
  | nil => rfl
  | cons c cs ih => simp [charListLt, lt_irrefl, ih]

theorem charListLt_eq_of_not {a b : List Char}
    (h1 : charListLt a b = false) (h2 : charListLt b a = false) : a = b := by
  induction a generalizing b with
  | nil =>
    cases b with
    | nil => rfl
    | cons d ds => simp [charListLt] at h1
  | cons c cs ih =>
    cases b with
    | nil => simp [charListLt] at h2
    | cons d ds =>
      by_cases hcd : c < d
      · simp [charListLt, hcd] at h1
      · by_cases hdc : d < c
        · simp [charListLt, hdc] at h2
        · have hce : c = d := le_antisymm (not_lt.mp hdc) (not_lt.mp hcd)
          simp only [charListLt, if_neg hcd, if_neg hdc] at h1
          simp only [charListLt, if_neg hdc, if_neg hcd] at h2
          simp [hce, ih h1 h2]

theorem charListLt_asymm {a b : List Char}
    (h : charListLt a b = true) : charListLt b a = false := by
  induction a generalizing b with
  | nil =>
    cases b with
    | nil => simp [charListLt] at h
    | cons d ds => rfl
  | cons c cs ih =>
    cases b with
    | nil => simp [charListLt] at h
    | cons d ds =>
      by_cases hcd : c < d
      · simp [charListLt, hcd, asymm hcd]
      · by_cases hdc : d < c
        · simp [charListLt, if_neg hcd, hdc] at h
        · simp only [charListLt, if_neg hcd, if_neg hdc] at h
          simp only [charListLt, if_neg hdc, if_neg hcd]
          exact ih h

theorem charListLt_trans {a b c : List Char}
    (h1 : charListLt a b = true) (h2 : charListLt b c = true) :
    charListLt a c = true := by
  induction a generalizing b c with
  | nil =>
    cases c with
    | nil => cases b <;> simp [charListLt] at h2
    | cons e es => rfl
  | cons x xs ih =>
    cases b with
    | nil => simp [charListLt] at h1
    | cons y ys =>
      cases c with
      | nil => simp [charListLt] at h2
      | cons z zs =>
        rcases lt_trichotomy x y with hxy | rfl | hyx
        · rcases lt_trichotomy y z with hyz | rfl | hzy
          · simp [charListLt, lt_trans hxy hyz]
          · simp [charListLt, hxy]
          · simp [charListLt, if_neg (asymm hzy), hzy] at h2
        · simp only [charListLt, lt_irrefl, if_neg (lt_irrefl x)] at h1
          rcases lt_trichotomy x z with hxz | rfl | hzx
          · simp [charListLt, hxz]
          · simp only [charListLt, lt_irrefl, if_neg (lt_irrefl x)] at h2 ⊢
            exact ih h1 h2
          · simp [charListLt, if_neg (asymm hzx), hzx] at h2
        · simp [charListLt, if_neg (asymm hyx), hyx] at h1

theorem strLt_irrefl (a : String) : strLt a a = false :=
  charListLt_irrefl a.data

theorem strLt_eq_of_not {a b : String}
    (h1 : strLt a b = false) (h2 : strLt b a = false) : a = b :=
  String.ext (charListLt_eq_of_not h1 h2)

theorem strLt_asymm {a b : String} (h : strLt a b = true) :
    strLt b a = false :=
  charListLt_asymm h

theorem strLt_trans {a b c : String}
    (h1 : strLt a b = true) (h2 : strLt b c = true) : strLt a c = true :=
  charListLt_trans h1 h2

/-- `std::map<std::string,int>::find` (const, non-mutating): descends the
search tree by key comparison and returns the mapped value if the key is
there. -/
def mapFind : List (String × Int) → String → Option Int
  | [], _ => none
  | (k2, v2) :: rest, k =>
    if strLt k k2 then none
    else if strLt k2 k then mapFind rest k
    else some v2

/-- `std::map::operator[]` read access (main.cpp line 95): descends by key
comparison; a missing key is inserted with the value-initialized default
`0` and that default is returned.  Returns the pair (returned value,
map afterwards). -/
def mapIndex : List (String × Int) → String → Int × List (String × Int)
  | [], k => (0, [(k, 0)])
  | (k2, v2) :: rest, k =>
    if strLt k k2 then (0, (k, 0) :: (k2, v2) :: rest)
    else if strLt k2 k then
      ((mapIndex rest k).1, (k2, v2) :: (mapIndex rest k).2)
    else (v2, (k2, v2) :: rest)

/-- `ages[k] = v` (main.cpp line 89): `operator[]` followed by assignment,
i.e. insert-or-assign. -/
def mapAssign (k : String) (v : Int) : List (String × Int) → List (String × Int)
  | [] => [(k, v)]
  | (k2, v2) :: rest =>
    if strLt k k2 then (k, v) :: (k2, v2) :: rest
    else if strLt k2 k then (k2, v2) :: mapAssign k v rest
    else (k2, v) :: rest

/-- `std::map::insert` (main.cpp line 91): inserts only when the key is
absent, an existing entry is kept untouched. -/
def mapInsert (k : String) (v : Int) : List (String × Int) → List (String × Int)
  | [] => [(k, v)]
  | (k2, v2) :: rest =>
    if strLt k k2 then (k, v) :: (k2, v2) :: rest
    else if strLt k2 k then (k2, v2) :: mapInsert k v rest
    else (k2, v2) :: rest

/-- The map `ages` of `Trees` after `ages["Bill"] = 38`. -/
def ages0 : List (String × Int) := mapAssign "Bill" 38 []

/-- The map `ages` after the further `ages.insert({"Brian", 40})`. -/
def ages1 : List (String × Int) := mapInsert "Brian" 40 ages0

/-- The value `jens_age` produced by `int jens_age = ages["Jen"];`. -/
def jens_age : Int := (mapIndex ages1 "Jen").1

/-- The map `ages` after the `ages["Jen"]` access (which auto-inserts). -/
def ages2 : List (String × Int) := (mapIndex ages1 "Jen").2

/-- The line `Trees` prints for the `ages.find("Jen")` lookup
(main.cpp lines 98-106): the found branch prints the mapped age, the
else branch reports the failed lookup. -/
def treesFindMessage (m : List (String × Int)) : String :=
  match mapFind m "Jen" with
  | some v => "Jens age is " ++ toString v
  | none => "Could not find Jen\x27s age."

/-- Claim C2: accessing a missing key `k` through `operator[]` does not
signal absence: it returns the default value 0, the map afterwards has
`k` mapped to 0, and the size grew by one. -/
theorem map_index_missing_inserts_default (m : List (String × Int)) (k : String)
    (hk : ∀ p ∈ m, p.1 ≠ k) :
    (mapIndex m k).1 = 0 ∧
    (mapIndex m k).2.length = m.length + 1 ∧
    mapFind (mapIndex m k).2 k = some 0 := by
  induction m with
  | nil =>
    refine ⟨rfl, rfl, ?_⟩
    simp [mapIndex, mapFind, strLt_irrefl]
  | cons hd rest ih =>
    obtain ⟨k2, v2⟩ := hd
    have hne : k2 ≠ k := hk (k2, v2) (List.mem_cons_self _ _)
    have hkrest : ∀ p ∈ rest, p.1 ≠ k :=
      fun p hp => hk p (List.mem_cons_of_mem _ hp)
    cases hb1 : strLt k k2 with
    | true =>
      refine ⟨?_, ?_, ?_⟩ <;> simp [mapIndex, mapFind, hb1, strLt_irrefl]
    | false =>
      cases hb2 : strLt k2 k with
      | false => exact absurd (strLt_eq_of_not hb1 hb2) (Ne.symm hne)
      | true =>
        obtain ⟨ih1, ih2, ih3⟩ := ih hkrest
        refine ⟨?_, ?_, ?_⟩
        · simpa [mapIndex, hb1, hb2] using ih1
        · simpa [mapIndex, hb1, hb2] using ih2
        · simpa [mapIndex, mapFind, hb1, hb2] using ih3

/-- Claim C2 witness: in `Trees`, after inserting Bill and Brian, the
access `ages["Jen"]` yields 0, makes the lookup of Jen afterwards
succeed with 0, and grows the map from 2 to 3 entries. -/
theorem map_index_missing_inserts_default_witness :
    (∀ p ∈ ages1, p.1 ≠ "Jen") ∧
    jens_age = 0 ∧ ages2.length = ages1.length + 1 ∧
    mapFind ages2 "Jen" = some 0 := by
  have h := map_index_missing_inserts_default ages1 "Jen" (by decide)
  exact ⟨by decide, h.1, h.2.1, h.2.2⟩

/-- Claim C3 (amended part): a non-mutating `find` of a key that is not
present in the map reports not-found; the map is passed untouched (the
embedding of the const `find` returns only the lookup result). -/
theorem map_find_missing_none (m : List (String × Int)) (k : String)
    (hk : ∀ p ∈ m, p.1 ≠ k) :
    mapFind m k = none := by
  induction m with
  | nil => rfl
  | cons hd rest ih =>
    obtain ⟨k2, v2⟩ := hd
    have hne : k2 ≠ k := hk (k2, v2) (List.mem_cons_self _ _)
    have hkrest : ∀ p ∈ rest, p.1 ≠ k :=
      fun p hp => hk p (List.mem_cons_of_mem _ hp)
    cases hb1 : strLt k k2 with
    | true => simp [mapFind, hb1]
    | false =>
      cases hb2 : strLt k2 k with
      | false => exact absurd (strLt_eq_of_not hb1 hb2) (Ne.symm hne)
      | true => simpa [mapFind, hb1, hb2] using ih hkrest

/-- Claim C3 witness: before the `ages["Jen"]` access, Jen is absent from
`ages` and `find` reports not-found. -/
theorem map_find_missing_none_witness :
    (∀ p ∈ ages1, p.1 ≠ "Jen") ∧ mapFind ages1 "Jen" = none :=
  ⟨by decide, map_find_missing_none ages1 "Jen" (by decide)⟩

/-- Claim C3 counterexample: the concrete `find("Jen")` call in `Trees`
is not a not-found case: by the time it runs, `ages["Jen"]` has already
auto-inserted the entry, so the lookup succeeds with value 0. -/
theorem trees_find_jen_found : mapFind ages2 "Jen" = some 0 := by
  decide

/-- Claim C9: the `find("Jen")` in `Trees` necessarily succeeds (the
entry was auto-inserted by `ages["Jen"]`), so the program prints
"Jens age is 0" and the else branch is never taken. -/
theorem trees_jen_message_deterministic :
    treesFindMessage ages2 = "Jens age is 0" ∧
    treesFindMessage ages2 ≠ "Could not find Jen\x27s age." := by
  refine ⟨by decide, by decide⟩

/-- `std::set` / `absl::btree_set` insertion with comparator `lt`:
descends the search tree; an element equivalent to one already present
(neither side compares less) is not inserted. -/
def setInsertLt {α : Type} (lt : α → α → Bool) (x : α) : List α → List α
  | [] => [x]
  | y :: ys =>
    if lt x y then x :: y :: ys
    else if lt y x then y :: setInsertLt lt x ys
    else y :: ys

theorem mem_setInsertLt {α : Type} {lt : α → α → Bool} {x z : α}
    {l : List α} (hz : z ∈ setInsertLt lt x l) : z = x ∨ z ∈ l := by
  induction l with
  | nil =>
    simp only [setInsertLt, List.mem_singleton] at hz
    exact Or.inl hz
  | cons y ys ih =>
    cases h1 : lt x y with
    | true =>
      simp only [setInsertLt, h1, if_true] at hz
      rcases List.mem_cons.mp hz with rfl | hz2
      · exact Or.inl rfl
      · exact Or.inr hz2
    | false =>
      cases h2 : lt y x with
      | true =>
        simp [setInsertLt, h1, h2] at hz
        rcases hz with rfl | hz2
        · exact Or.inr (List.mem_cons_self _ _)
        · rcases ih hz2 with rfl | hz3
          · exact Or.inl rfl
          · exact Or.inr (List.mem_cons_of_mem _ hz3)
      | false =>
        simp [setInsertLt, h1, h2] at hz
        rcases hz with rfl | hz2
        · exact Or.inr (List.mem_cons_self _ _)
        · exact Or.inr (List.mem_cons_of_mem _ hz2)

theorem pairwise_setInsertLt {α : Type} {lt : α → α → Bool}
    (htr : ∀ a b c, lt a b = true → lt b c = true → lt a c = true)
    (x : α) {l : List α}
    (hl : List.Pairwise (fun a b => lt a b = true) l) :
    List.Pairwise (fun a b => lt a b = true) (setInsertLt lt x l) := by
  induction l with
  | nil => simp [setInsertLt]
  | cons y ys ih =>
    rcases List.pairwise_cons.mp hl with ⟨hy, hys⟩
    cases h1 : lt x y with
    | true =>
      simp only [setInsertLt, h1, if_true]
      refine List.pairwise_cons.mpr ⟨?_, hl⟩
      intro b hb
      rcases List.mem_cons.mp hb with rfl | hb2
      · exact h1
      · exact htr x y b h1 (hy b hb2)
    | false =>
      cases h2 : lt y x with
      | true =>
        simp only [setInsertLt, h1, h2, Bool.false_eq_true, if_false, if_true]
        refine List.pairwise_cons.mpr ⟨?_, ih hys⟩
        intro b hb
        rcases mem_setInsertLt hb with rfl | hb2
        · exact h2
        · exact hy b hb2
      | false =>
        simpa [setInsertLt, h1, h2] using hl

/-- `std::set<std::string>::insert` in `HashTables`. -/
def stringSetInsert (x : String) (s : List String) : List String :=
  setInsertLt strLt x s

/-- The `std::set<std::string>` obtained by inserting a sequence of names
into an initially empty set (main.cpp lines 176-178); its list of
elements is also its iteration order. -/
def stringSetOf (l : List String) : List String :=
  l.foldl (fun s x => stringSetInsert x s) []

theorem pairwise_stringSetOf_aux (l : List String) (s : List String)
    (hs : List.Pairwise (fun a b => strLt a b = true) s) :
    List.Pairwise (fun a b => strLt a b = true)
      (l.foldl (fun s x => stringSetInsert x s) s) := by
  induction l generalizing s with
  | nil => simpa using hs
  | cons x xs ih =>
    exact ih _
      (@pairwise_setInsertLt String strLt
        (fun a b c h1 h2 => strLt_trans h1 h2) x s hs)

/-- Claim C4: iterating an ordered set right after any sequence of
insertions yields its keys in strictly ascending comparator order, and
the concrete set of `HashTables` iterates as Bill, Brian, Jen, Steve
(ascending alphabetical order), deterministically. -/
theorem ordered_set_iteration_sorted :
    (∀ l : List String,
      List.Pairwise (fun a b => strLt a b = true) (stringSetOf l)) ∧
    stringSetOf ["Bill", "Jen", "Brian", "Steve"] =
      ["Bill", "Brian", "Jen", "Steve"] := by
  constructor
  · intro l
    exact pairwise_stringSetOf_aux l [] List.Pairwise.nil
  · decide

/-- Claim C8: in an ordered `Person` set (comparator `Person.lt`, which
compares only ages), inserting a person whose age equals that of an
element already present leaves the whole set - size and stored names -
unchanged. -/
theorem ordered_person_set_equal_age_noop (s : List Person) (p q : Person)
    (hs : List.Pairwise (fun a b => Person.lt a b = true) s)
    (hq : q ∈ s) (hage : q.age = p.age) :
    setInsertLt Person.lt p s = s := by
  induction s with
  | nil => cases hq
  | cons y ys ih =>
    rcases List.pairwise_cons.mp hs with ⟨hy, hys⟩
    rcases List.mem_cons.mp hq with heq | hq2
    · subst heq
      have h1 : Person.lt p q = false := by
        simp only [Person.lt, decide_eq_false_iff_not]
        exact not_lt.mpr hage.le
      have h2 : Person.lt q p = false := by
        simp only [Person.lt, decide_eq_false_iff_not]
        exact not_lt.mpr hage.symm.le
      simp [setInsertLt, h1, h2]
    · have hyq : y.age < q.age := by simpa [Person.lt] using hy q hq2
      have hyp2 : y.age < p.age := lt_of_lt_of_le hyq hage.le
      have hyp : Person.lt y p = true := by
        simpa [Person.lt] using hyp2
      have hpy : Person.lt p y = false := by
        simp only [Person.lt, decide_eq_false_iff_not]
        exact not_lt.mpr (le_of_lt hyp2)
      simp [setInsertLt, hpy, hyp, ih hys hq2]

/-- Claim C8 witness: a singleton ordered set holding Jen (38); inserting
a different person who is also 38 changes nothing. -/
theorem ordered_person_set_equal_age_noop_witness :
    jen ∈ [jen] ∧ jen.age = (Person.mk "Other" 38).age ∧
    setInsertLt Person.lt (Person.mk "Other" 38) [jen] = [jen] :=
  ⟨List.mem_singleton_self jen, by decide,
    ordered_person_set_equal_age_noop [jen] (Person.mk "Other" 38) jen
      (List.pairwise_singleton _ _) (List.mem_singleton_self jen) (by decide)⟩

/-- The `hash_fn` lambda of `HashTables` (main.cpp lines 162-164):
hashes a `Person` by hashing only the name with the string hasher `h`
(the standard library string hash, which is external to this source). -/
def hash_fn (h : String → Nat) (p : Person) : Nat :=
  h p.name

/-- The `eq_fn` lambda of `HashTables` (main.cpp lines 165-168):
compares only the names. -/
def eq_fn (lhs rhs : Person) : Bool :=
  lhs.name == rhs.name

/-- Claim C5: the custom hash function and equality predicate for
`Person` are consistent: whatever the underlying string hasher is, two
persons equal under `eq_fn` hash identically under `hash_fn`, since both
are determined by the name alone. -/
theorem person_hash_eq_consistent (h : String → Nat) (p q : Person)
    (he : eq_fn p q = true) : hash_fn h p = hash_fn h q := by
  have hname : p.name = q.name := by simpa [eq_fn] using he
  simp [hash_fn, hname]

/-- Claim C5 witness: two Bills of different ages are `eq_fn`-equal and
hash identically (string hasher instantiated with `String.length`). -/
theorem person_hash_eq_consistent_witness :
    eq_fn (Person.mk "Bill" 38) (Person.mk "Bill" 99) = true ∧
    hash_fn String.length (Person.mk "Bill" 38) =
      hash_fn String.length (Person.mk "Bill" 99) :=
  ⟨by decide,
    person_hash_eq_consistent String.length
      (Person.mk "Bill" 38) (Person.mk "Bill" 99) (by decide)⟩

/-- `std::unordered_set<std::string>::insert`: a key already present is
left alone, a new key joins the stored elements. -/
def usetInsert (s : List String) (x : String) : List String :=
  if x ∈ s then s else s ++ [x]

/-- The `std::unordered_set<std::string>` obtained by inserting a
sequence of names into an initially empty set (main.cpp lines 177-179). -/
def usetOf (l : List String) : List String :=
  l.foldl usetInsert []

/-- `std::unordered_set::find` as a membership test: compares the key for
equality against the stored elements. -/
def usetContains (s : List String) (x : String) : Bool :=
  s.contains x

theorem mem_usetInsert (s : List String) (x y : String) (h : y ∈ s) :
    y ∈ usetInsert s x := by
  unfold usetInsert
  split
  · exact h
  · exact List.mem_append_left _ h

theorem self_mem_usetInsert (s : List String) (x : String) :
    x ∈ usetInsert s x := by
  unfold usetInsert
  split
  · assumption
  · exact List.mem_append_right _ (List.mem_singleton_self x)

theorem mem_foldl_usetInsert (l : List String) (s : List String)
    (k : String) (h : k ∈ s) : k ∈ l.foldl usetInsert s := by
  induction l generalizing s with
  | nil => simpa using h
  | cons x xs ih => exact ih _ (mem_usetInsert s x k h)

theorem mem_usetOf_aux (l : List String) (s : List String) (k : String)
    (h : k ∈ l) : k ∈ l.foldl usetInsert s := by
  induction l generalizing s with
  | nil => cases h
  | cons x xs ih =>
    rcases List.mem_cons.mp h with rfl | h2
    · exact mem_foldl_usetInsert xs (usetInsert s k) k (self_mem_usetInsert s k)
    · exact ih (usetInsert s x) h2

/-- Claim C6: after any sequence of insertions into the unordered
(hash-backed) set, a membership lookup of each inserted key succeeds;
the lookup is by equality and independent of any iteration order. -/
theorem unordered_lookup_succeeds (l : List String) (k : String)
    (h : k ∈ l) : usetContains (usetOf l) k = true := by
  have hm : k ∈ usetOf l := mem_usetOf_aux l [] k h
  simpa [usetContains] using List.elem_iff.mpr hm

/-- Claim C6 witness: Steve is among the names inserted into
`unordered_names` and the later lookup finds him. -/
theorem unordered_lookup_succeeds_witness :
    ("Steve" : String) ∈ ["Bill", "Jen", "Brian", "Steve"] ∧
    usetContains (usetOf ["Bill", "Jen", "Brian", "Steve"]) "Steve" = true :=
  ⟨by decide,
    unordered_lookup_succeeds ["Bill", "Jen", "Brian", "Steve"] "Steve"
      (by decide)⟩

/-- The static array `int my_nums[10]` of `Arrays` (equally the
`std::array<int, 10> ints` of `NotArrays`): ten integer cells addressed
by index; an indexed write changes one cell. -/
def arrayWrite (a : Fin 10 → Int) (i : Fin 10) (v : Int) : Fin 10 → Int :=
  fun j => if j = i then v else a j

/-- Claim C7: whatever the ten cells held before, after `my_nums[0] = 5`
reading index 0 gives 5 and every other index still holds its previous
(untouched) content. -/
theorem fixed_array_write_frame (init : Fin 10 → Int) :
    arrayWrite init 0 5 0 = 5 ∧
    ∀ j : Fin 10, j ≠ 0 → arrayWrite init 0 5 j = init j := by
  constructor
  · simp [arrayWrite]
  · intro j hj
    simp [arrayWrite, hj]

/-- Claim C7 witness: on all-zero initial contents, index 0 reads 5
after the write and index 1 still reads 0. -/
theorem fixed_array_write_frame_witness :
    arrayWrite (fun _ => 0) 0 5 0 = 5 ∧
    ((1 : Fin 10) ≠ 0 ∧ arrayWrite (fun _ => 0) 0 5 1 = 0) :=
  ⟨(fixed_array_write_frame (fun _ => 0)).1,
    by decide, (fixed_array_write_frame (fun _ => 0)).2 1 (by decide)⟩

/-- Comparator of `std::set<int>` (natural order on `int`). -/
def intLt (a b : Int) : Bool :=
  decide (a < b)

/-- The `int_set` of `Trees` after `int_set.insert(7)`. -/
def int_set : List Int :=
  setInsertLt intLt 7 []

/-- Lines printed by `Arrays`: none. -/
def ArraysOut : List String := []

/-- Lines printed by `Trees`: the two `int_set` presence checks and the
result of the Jen lookup. -/
def TreesOut : List String :=
  (if int_set.contains 7 then ["Has a 7"] else []) ++
  (if int_set.count 7 != 0
    then ["Strangely, another way of checking for presence."] else []) ++
  [treesFindMessage ages2]

/-- The `std::set<std::string> names` of `HashTables`. -/
def names : List String :=
  stringSetOf ["Bill", "Jen", "Brian", "Steve"]

/-- Lines printed by `HashTables`: the ordered names in set-iteration
order, then the unordered names in whatever (unspecified) order `u` the
hash container iterates in. -/
def hashTablesOut (u : List String) : List String :=
  names.map (fun n => "Ordered Name: " ++ n) ++
    u.map (fun n => "Unordered Name: " ++ n)

/-- Lines printed by `NotArrays` (the two tuple printfs, with the
`%.1f`-formatted doubles rendered as their decimal text). -/
def NotArraysOut : List String :=
  ["Bill is 38 years old and 6.5 feet tall",
   "Also Sam is 14 years old and 5.2 feet tall"]

/-- The four demonstration routines of main.cpp. -/
inductive Routine
  | arrays
  | trees
  | hashTables
  | notArrays

/-- The body of `main` (main.cpp lines 247-253): the four routines in
their fixed call order. -/
def mainRoutines : List Routine :=
  [Routine.arrays, Routine.trees, Routine.hashTables, Routine.notArrays]

/-- The lines a routine prints; `u` is the unspecified iteration order
of the unordered container in `HashTables`. -/
def routineOut (u : List String) : Routine → List String
  | Routine.arrays => ArraysOut
  | Routine.trees => TreesOut
  | Routine.hashTables => hashTablesOut u
  | Routine.notArrays => NotArraysOut

/-- Running `main`: the routines of `mainRoutines` execute in order,
their output concatenates, and `main` returns 0. -/
def mainRun (u : List String) : List String × Int :=
  ((mainRoutines.map (routineOut u)).flatten, 0)

/-- Claim C10: for every execution (whatever order the unordered
container iterates in), `main` takes no input, produces the output of
Arrays, Trees, HashTables, NotArrays in that fixed order, and returns
exit code 0. -/
theorem main_order_and_retcode (u : List String) :
    (mainRun u).2 = 0 ∧
    (mainRun u).1 =
      ArraysOut ++ (TreesOut ++ (hashTablesOut u ++ NotArraysOut)) := by
  constructor
  · rfl
  · simp [mainRun, mainRoutines, routineOut]
